import Mathlib

/-!
Verification of the line-oriented text-editor engine of
`text-editor-server.ts` (an MCP file-editing server).

JavaScript strings are modelled as `List Char`; the engine's
line-splitting (`content.split("\n")`), joining (`lines.join("\n")`),
substring replacement (`String.prototype.replace` with a global
escaped-literal regex), line splicing, insertion, file creation, the
in-memory backup map used by `undo_edit`, and the `path.resolve` /
`startsWith` based path validation are all translated from the source.
Filesystem state is a pair of maps (file contents and backups) keyed by
resolved path; each tool handler becomes a state transition that either
succeeds with a new state or fails with an error kind, carrying the
state as mutated up to the point of the throw (writes happen last in
every handler, so a validation failure leaves file contents untouched,
though a backup taken before the validation does persist, as in the
source).
-/

set_option maxHeartbeats 1000000

namespace TextEditor

/-- Characters of a JavaScript string. -/
abbrev Str := List Char

/-- `s.split(sep)` for a one-character separator, as in `content.split("\n")`.
JavaScript's split of the empty string yields `[""]`. -/
def splitCh (sep : Char) : Str → List Str
  | [] => [[]]
  | c :: cs =>
    if c = sep then [] :: splitCh sep cs
    else
      match splitCh sep cs with
      | [] => [[c]]
      | p :: ps => (c :: p) :: ps

/-- `parts.join(sep)` for a one-character separator, as in `lines.join("\n")`. -/
def joinCh (sep : Char) : List Str → Str
  | [] => []
  | [p] => p
  | p :: ps => p ++ sep :: joinCh sep ps

/-- `content.split("\n")` from the source. -/
def splitLines (content : Str) : List Str := splitCh '\n' content

/-- `lines.join("\n")` from the source. -/
def joinLines (lines : List Str) : Str := joinCh '\n' lines

/-- The decimal digit character for `d < 10`. -/
def digitChar (d : Nat) : Char := Char.ofNat (48 + d)

/-- Decimal rendering of a natural number, as JavaScript template-literal
interpolation `${n}` renders the (natural) line numbers of the source. -/
def natRepr (n : Nat) : Str :=
  if n < 10 then [digitChar n]
  else natRepr (n / 10) ++ [digitChar (n % 10)]
termination_by n
decreasing_by exact Nat.div_lt_self (by omega) (by omega)

/-- One rendered line of `view`: the template literal `n: line`
(1-indexed line number, colon, space, line). -/
def numberedLine (n : Nat) (line : Str) : Str := natRepr n ++ ':' :: ' ' :: line

/-- `lines.map((line, idx) => numberedLine (k + idx) line)`: number
consecutive lines starting at `k`. -/
def numberLines (k : Nat) : List Str → List Str
  | [] => []
  | l :: ls => numberedLine k l :: numberLines (k + 1) ls

/-- The full-content fallback of the `view` handler: every line prefixed
with its 1-indexed line number, joined by newline. -/
def renderAll (lines : List Str) : Str := joinLines (numberLines 1 lines)

/-- The file branch of the `view` tool handler (lines 100-133 of the
source): with a two-element `view_range`, clamp the 1-indexed start to
the first line and the end (where `-1` means last line) to the last
line; if the clamped slice is nonempty render only it, otherwise (and
for an absent or malformed range) render every line. -/
def view (content : Str) (view_range : Option (List Int)) : Str :=
  let lines := splitLines content
  match view_range with
  | some [a, b] =>
    let startLine : Int := max 0 (a - 1)
    let endLine : Int :=
      if b = -1 then (lines.length : Int) - 1
      else min ((lines.length : Int) - 1) (b - 1)
    if startLine ≤ endLine then
      let selected := (lines.drop startLine.toNat).take (endLine.toNat + 1 - startLine.toNat)
      joinLines (numberLines (startLine.toNat + 1) selected)
    else renderAll lines
  | _ => renderAll lines

/-- Error kinds thrown by the tool handlers. -/
inductive EditorError where
  | accessDenied
  | notFound
  | alreadyExists
  | invalidRange
deriving DecidableEq

/-- `effectiveEndLine` of the `edit` handler: `-1` means "to the end". -/
def effEndLine (len : Nat) (end_line : Int) : Int :=
  if end_line = -1 then (len : Int) else end_line

/-- The pure core of the `edit` tool handler (lines 244-274 of the
source): split into lines, validate `start_line ∈ [1, len]` and the
resolved `end_line ∈ [start_line, len]`, then splice the lines of
`new_content` over the inclusive 1-indexed range and rejoin. -/
def edit (content : Str) (start_line end_line : Int) (new_content : Str) :
    Except EditorError Str :=
  let lines := splitLines content
  if start_line < 1 ∨ (lines.length : Int) < start_line then
    .error .invalidRange
  else
    let effectiveEndLine := effEndLine lines.length end_line
    if effectiveEndLine < start_line ∨ (lines.length : Int) < effectiveEndLine then
      .error .invalidRange
    else
      let startIndex := (start_line - 1).toNat
      let endIndex := (effectiveEndLine - 1).toNat
      let newLines := splitLines new_content
      .ok (joinLines (lines.take startIndex ++ newLines ++ lines.drop (endIndex + 1)))

/-- The line-array update of the `insert` tool handler (lines 332-341 of
the source), after `line_number ≥ 1` has been validated: splice `text`
in as a single array element, or pad with empty lines and append when
`line_number` exceeds the line count. -/
def insertArray (lines : List Str) (line_number : Int) (text : Str) : List Str :=
  if line_number ≤ (lines.length : Int) then
    lines.take (line_number - 1).toNat ++ text :: lines.drop (line_number - 1).toNat
  else
    (lines ++ List.replicate ((line_number - 1).toNat - lines.length) []) ++ [text]

/-- JavaScript `String.prototype.replace` with a global regex built from
the escaped literal `old` (so matching is literal, left to right,
non-overlapping) and a callback that returns `new` for the first
`budget` matches and the matched text afterwards — the `count > 0`
branch of the `str_replace` handler. An empty `old` matches at every
position and the scan advances one character, as the regex engine does. -/
def scanReplaceLimited (old new : Str) : Nat → Str → Str
  | budget, [] => if old = [] ∧ 0 < budget then new else []
  | budget, c :: cs =>
    if hOld : old = [] then
      (if 0 < budget then new else []) ++ c :: scanReplaceLimited old new (budget - 1) cs
    else if old.isPrefixOf (c :: cs) then
      (if 0 < budget then new else old) ++
        scanReplaceLimited old new (budget - 1) (List.drop old.length (c :: cs))
    else
      c :: scanReplaceLimited old new budget cs
termination_by _ content => content.length
decreasing_by
  · simp
  · simp only [List.length_drop, List.length_cons]
    have : 0 < old.length := List.length_pos.mpr hOld
    omega
  · simp

/-- JavaScript replacement-pattern substitution applied to the
replacement string in the string-replacement form of
`String.prototype.replace`: `$$` is a literal dollar, `$&` the matched
text, a dollar before character 96 (backtick) the portion of the
subject before the match, a dollar before character 39 (single quote)
the portion after it; anything else (including `$digit`, since the
escaped-literal pattern has no capture groups) is copied verbatim. -/
def dollarSubst (matched before after : Str) : Str → Str
  | [] => []
  | c :: rest =>
    if c = '$' then
      match rest with
      | [] => ['$']
      | d :: rest2 =>
        if d = '$' then '$' :: dollarSubst matched before after rest2
        else if d = '&' then matched ++ dollarSubst matched before after rest2
        else if d = Char.ofNat 96 then before ++ dollarSubst matched before after rest2
        else if d = Char.ofNat 39 then after ++ dollarSubst matched before after rest2
        else '$' :: dollarSubst matched before after (d :: rest2)
    else c :: dollarSubst matched before after rest
termination_by l => l.length
decreasing_by all_goals simp_arith

/-- JavaScript `original.replace(new RegExp(escapeRegExp(old), "g"), new)`
with `new` a replacement *string* — the replace-all branch of the
`str_replace` handler.  `pos` is the index of the remaining suffix in
`original`, needed because replacement patterns can refer to the text
around the match. -/
def scanAllAux (original old new : Str) : Nat → Str → Str
  | pos, [] =>
    if old = [] then dollarSubst old (original.take pos) (original.drop pos) new
    else []
  | pos, c :: cs =>
    if hOld : old = [] then
      dollarSubst old (original.take pos) (original.drop pos) new ++
        c :: scanAllAux original old new (pos + 1) cs
    else if old.isPrefixOf (c :: cs) then
      dollarSubst old (original.take pos) (original.drop (pos + old.length)) new ++
        scanAllAux original old new (pos + old.length) (List.drop old.length (c :: cs))
    else
      c :: scanAllAux original old new (pos + 1) cs
termination_by _ content => content.length
decreasing_by
  all_goals simp only [List.length_drop, List.length_cons]
  all_goals try omega
  all_goals (have h0 : 0 < old.length := List.length_pos.mpr hOld; omega)

/-- `content.replace(new RegExp(escapeRegExp(old_str), "g"), new_str)`. -/
def jsReplaceAll (content old new : Str) : Str := scanAllAux content old new 0 content

/-- The pure core of the `str_replace` tool handler (lines 177-189 of
the source): if `count` is given and positive, replace the first
`count` literal occurrences via the callback form; otherwise replace
every occurrence via the string-replacement form. -/
def str_replace (content old new : Str) (count : Option Int) : Str :=
  match count with
  | some c => if 0 < c then scanReplaceLimited old new c.toNat content else jsReplaceAll content old new
  | none => jsReplaceAll content old new

/-- Specification-side view of literal replacement: the subject split at
the left-to-right, non-overlapping occurrences of the (nonempty)
literal `old`, so that the pieces are exactly the text between
occurrences. -/
def splitOcc (old : Str) : Str → List Str
  | [] => [[]]
  | c :: cs =>
    if old ≠ [] ∧ old.isPrefixOf (c :: cs) then
      [] :: splitOcc old (List.drop old.length (c :: cs))
    else
      match splitOcc old cs with
      | [] => [[c]]
      | p :: ps => (c :: p) :: ps
termination_by l => l.length
decreasing_by
  · rename_i h
    simp only [List.length_drop, List.length_cons]
    have : 0 < old.length := List.length_pos.mpr h.1
    omega
  · simp

/-- Rejoin the pieces of `splitOcc` with a fixed separator. -/
def interText (sep : Str) : List Str → Str
  | [] => []
  | [p] => p
  | p :: ps => p ++ sep ++ interText sep ps

/-- Is a replacement budget still available? (`none` = unlimited.) -/
def activeB : Option Nat → Bool
  | none => true
  | some n => decide (0 < n)

/-- Spend one unit of a replacement budget. -/
def dec1 : Option Nat → Option Nat
  | none => none
  | some n => some (n - 1)

/-- Specification-side view of limited replacement: rejoin the pieces of
`splitOcc`, writing `new` for each of the first `budget` occurrences of
`old` and the occurrence itself (`old`) for the rest. -/
def joinBudget (new old : Str) : Option Nat → List Str → Str
  | _, [] => []
  | _, [p] => p
  | b, p :: ps => p ++ (if activeB b then new else old) ++ joinBudget new old (dec1 b) ps

/-- `s.split("/")`. -/
def splitSlash (s : Str) : List Str := splitCh '/' s

/-- Segment normalization of Node's POSIX `path.resolve`: drop empty and
`.` segments, let `..` pop the previous segment (or vanish at the
root). -/
def normSegs (segs : List Str) : List Str :=
  segs.foldl
    (fun acc seg =>
      if seg = [] ∨ seg = ['.'] then acc
      else if seg = ['.', '.'] then acc.dropLast
      else acc ++ [seg])
    []

/-- Does the path start with a slash? -/
def isAbs (s : Str) : Bool :=
  match s with
  | c :: _ => c = '/'
  | [] => false

/-- Normalized segment list of `path.resolve(baseDir, filePath)` for an
absolute `baseDir`: an absolute `filePath` overrides `baseDir`. -/
def resolveSegs (baseDir filePath : Str) : List Str :=
  normSegs (splitSlash (if isAbs filePath then filePath else baseDir ++ '/' :: filePath))

/-- Node's POSIX `path.resolve(p)` for an absolute `p`. -/
def normAbs (p : Str) : Str := '/' :: joinCh '/' (normSegs (splitSlash p))

/-- Node's POSIX `path.resolve(baseDir, filePath)` for an absolute
`baseDir`. -/
def pathResolve (baseDir filePath : Str) : Str :=
  '/' :: joinCh '/' (resolveSegs baseDir filePath)

/-- `validatePath` from the source (lines 32-42): resolve `filePath`
against `baseDir` and throw an access-denied error unless the resolved
string literally starts with `path.resolve(baseDir)`
(`resolvedPath.startsWith(path.resolve(baseDir))`). -/
def validatePath (baseDir filePath : Str) : Except EditorError Str :=
  let resolvedPath := pathResolve baseDir filePath
  if (normAbs baseDir).isPrefixOf resolvedPath then Except.ok resolvedPath
  else Except.error .accessDenied

/-- Is the resolved path equal to, or a descendant of, the normalized
base directory?  (The property the specification ascribes to
`validatePath`: segment-wise prefix, not string prefix.) -/
def descendantOrEqual (baseDir filePath : Str) : Bool :=
  (normSegs (splitSlash baseDir)).isPrefixOf (resolveSegs baseDir filePath)

/-- The filesystem and backup state a running server observes: file
contents by resolved path, and the process-wide `fileBackups` record. -/
structure FSState where
  files : Str → Option Str
  backups : Str → Option Str

/-- `fs.writeFile(p, content)`. -/
def writeFile (p content : Str) (s : FSState) : FSState :=
  { s with files := fun q => if q = p then some content else s.files q }

/-- `backupFile` from the source (lines 45-54): if a file exists at `p`,
store its content in `fileBackups[p]`; otherwise do nothing. -/
def backupFile (p : Str) (s : FSState) : FSState :=
  match s.files p with
  | some content =>
    { s with backups := fun q => if q = p then some content else s.backups q }
  | none => s

/-- Outcome of one tool invocation: the handler catches any throw, so an
error result still carries the state as mutated before the throw. -/
inductive OpResult where
  | ok (s : FSState)
  | error (e : EditorError) (s : FSState)

/-- The state after an invocation, error or not. -/
def stateOf : OpResult → FSState
  | .ok s => s
  | .error _ s => s

/-- Did the invocation succeed? -/
def succeeded : OpResult → Bool
  | .ok _ => true
  | .error _ _ => false

/-- Did the invocation fail? -/
def failed (r : OpResult) : Bool := !succeeded r

/-- The `str_replace` tool handler on a resolved path `p` (path
resolution is modelled separately by `validatePath`): require the file
to exist, back it up, replace, write back. -/
def strReplaceOp (p old new : Str) (count : Option Int) (s : FSState) : OpResult :=
  match s.files p with
  | none => .error .notFound s
  | some content =>
    .ok (writeFile p (str_replace content old new count) (backupFile p s))

/-- The `edit` tool handler on a resolved path `p`: require the file to
exist, back it up, then validate the range and splice; a range error is
thrown after the backup but before any write. -/
def editOp (p : Str) (start_line end_line : Int) (new_content : Str) (s : FSState) :
    OpResult :=
  match s.files p with
  | none => .error .notFound s
  | some content =>
    match edit content start_line end_line new_content with
    | .error e => .error e (backupFile p s)
    | .ok out => .ok (writeFile p out (backupFile p s))

/-- The `insert` tool handler on a resolved path `p`: require the file
to exist, back it up, validate `line_number ≥ 1`, splice or pad, write
back. -/
def insertOp (p : Str) (line_number : Int) (text : Str) (s : FSState) : OpResult :=
  match s.files p with
  | none => .error .notFound s
  | some content =>
    if line_number < 1 then .error .invalidRange (backupFile p s)
    else
      .ok (writeFile p (joinLines (insertArray (splitLines content) line_number text))
        (backupFile p s))

/-- The `create` tool handler on a resolved path `p`: an existing target
with `overwrite` false is an error thrown before any mutation; an
existing target with `overwrite` true is backed up and overwritten;
a fresh target is just written (parent-directory creation is not
observable in this model). -/
def createOp (p content : Str) (overwrite : Bool) (s : FSState) : OpResult :=
  match s.files p with
  | some _ =>
    if overwrite then .ok (writeFile p content (backupFile p s))
    else .error .alreadyExists s
  | none => .ok (writeFile p content s)

/-- The `undo_edit` tool handler on a resolved path `p` (lines 431-453
of the source): `if (!fileBackups[resolvedPath]) throw`, so both a
missing entry and a stored *empty* snapshot (falsy in JavaScript) are
rejected; otherwise write the snapshot back and delete the entry. -/
def undoOp (p : Str) (s : FSState) : OpResult :=
  match s.backups p with
  | none => .error .notFound s
  | some b =>
    if b = [] then .error .notFound s
    else
      .ok { files := fun q => if q = p then some b else s.files q,
            backups := fun q => if q = p then none else s.backups q }

/-- One mutating operation, used to quantify over "any mutation". -/
inductive Mutation where
  | strRep (old new : Str) (count : Option Int)
  | ed (start_line end_line : Int) (new_content : Str)
  | ins (line_number : Int) (text : Str)
  | createOv (content : Str)

/-- Run a mutating operation on a resolved path. -/
def applyMutation : Mutation → Str → FSState → OpResult
  | .strRep old new count, p, s => strReplaceOp p old new count s
  | .ed a b nc, p, s => editOp p a b nc s
  | .ins n t, p, s => insertOp p n t s
  | .createOv c, p, s => createOp p c true s

/-- Example state: a two-line file `a\nb` at path `f`, no backups. -/
def stTwoLines : FSState :=
  ⟨fun q => if q = ['f'] then some ['a', '\n', 'b'] else none, fun _ => none⟩

/-- Example state: an empty file at path `f`, no backups. -/
def stEmptyFile : FSState :=
  ⟨fun q => if q = ['f'] then some [] else none, fun _ => none⟩

/-- Example state: no files, an empty-string backup stored for path `f`. -/
def stEmptyBackup : FSState :=
  ⟨fun _ => none, fun q => if q = ['f'] then some [] else none⟩

/-- Example state: no files and no backups. -/
def stEmptyFS : FSState := ⟨fun _ => none, fun _ => none⟩

end TextEditor

namespace TextEditor

theorem splitCh_ne_nil (sep : Char) (s : Str) : splitCh sep s ≠ [] := by
  induction s with
  | nil => simp [splitCh]
  | cons c cs ih =>
    simp only [splitCh]
    split
    · simp
    · cases h : splitCh sep cs with
      | nil => simp
      | cons p ps => simp

theorem not_mem_of_mem_splitCh {sep : Char} {s : Str} {p : Str}
    (hp : p ∈ splitCh sep s) : sep ∉ p := by
  induction s generalizing p with
  | nil =>
    simp [splitCh] at hp
    subst hp; simp
  | cons c cs ih =>
    simp only [splitCh] at hp
    by_cases hc : c = sep
    · simp only [hc, if_pos rfl] at hp
      rcases List.mem_cons.mp hp with h | h
      · subst h; simp
      · exact ih h
    · rw [if_neg hc] at hp
      cases h : splitCh sep cs with
      | nil => exact absurd h (splitCh_ne_nil sep cs)
      | cons q qs =>
        rw [h] at hp
        rcases List.mem_cons.mp hp with h1 | h1
        · subst h1
          intro hmem
          rcases List.mem_cons.mp hmem with h2 | h2
          · exact hc h2.symm
          · exact ih (h ▸ List.mem_cons_self q qs) h2
        · exact ih (h ▸ List.mem_cons_of_mem _ h1)

theorem splitCh_of_not_mem {sep : Char} {p : Str} (hp : sep ∉ p) :
    splitCh sep p = [p] := by
  induction p with
  | nil => simp [splitCh]
  | cons c cs ih =>
    have hc : c ≠ sep := fun h => hp (h ▸ List.mem_cons_self _ _)
    have hcs : sep ∉ cs := fun h => hp (List.mem_cons_of_mem _ h)
    simp only [splitCh, hc, if_false]
    rw [ih hcs]

theorem splitCh_append_sep {sep : Char} {p : Str} (t : Str) (hp : sep ∉ p) :
    splitCh sep (p ++ sep :: t) = p :: splitCh sep t := by
  induction p with
  | nil => simp [splitCh]
  | cons c cs ih =>
    have hc : c ≠ sep := fun h => hp (h ▸ List.mem_cons_self _ _)
    have hcs : sep ∉ cs := fun h => hp (List.mem_cons_of_mem _ h)
    simp only [List.cons_append, splitCh]
    rw [if_neg hc, show cs.append (sep :: t) = cs ++ sep :: t from rfl, ih hcs]

theorem splitCh_joinCh {sep : Char} {L : List Str} (hL : L ≠ [])
    (h : ∀ p ∈ L, sep ∉ p) : splitCh sep (joinCh sep L) = L := by
  induction L with
  | nil => exact absurd rfl hL
  | cons p ps ih =>
    cases ps with
    | nil =>
      simp only [joinCh]
      exact splitCh_of_not_mem (h p (List.mem_cons_self _ _))
    | cons q qs =>
      simp only [joinCh]
      rw [splitCh_append_sep _ (h p (List.mem_cons_self _ _))]
      rw [ih (by simp) (fun r hr => h r (List.mem_cons_of_mem _ hr))]

theorem get?_take_eq {α : Type} (l : List α) (n i : Nat) :
    (l.take n).get? i = if i < n then l.get? i else none := by
  induction l generalizing n i with
  | nil => cases n <;> cases i <;> simp
  | cons x xs ih =>
    cases n with
    | zero => simp
    | succ m =>
      cases i with
      | zero => simp
      | succ j => simpa using ih m j

theorem get?_drop_eq {α : Type} (l : List α) (n i : Nat) :
    (l.drop n).get? i = l.get? (n + i) := by
  induction l generalizing n with
  | nil => cases n <;> simp
  | cons x xs ih =>
    cases n with
    | zero => simp
    | succ m =>
      simpa [Nat.succ_add] using ih m

theorem digitChar_ne_newline : ∀ d < 10, digitChar d ≠ '\n' := by decide

theorem newline_not_mem_natRepr (n : Nat) : '\n' ∉ natRepr n := by
  induction n using Nat.strong_induction_on with
  | _ n ih =>
    rw [natRepr]
    split
    · next h =>
      simp only [List.mem_singleton]
      intro hc
      exact digitChar_ne_newline n h hc.symm
    · next h =>
      intro hmem
      rcases List.mem_append.mp hmem with h1 | h1
      · exact ih (n / 10) (Nat.div_lt_self (by omega) (by omega)) h1
      · rcases List.mem_singleton.mp h1 with h2
        exact digitChar_ne_newline (n % 10) (Nat.mod_lt n (by omega)) h2.symm

theorem newline_not_mem_numberedLine {line : Str} (n : Nat) (h : '\n' ∉ line) :
    '\n' ∉ numberedLine n line := by
  intro hmem
  rcases List.mem_append.mp hmem with h1 | h1
  · exact newline_not_mem_natRepr n h1
  · rcases List.mem_cons.mp h1 with h2 | h2
    · exact absurd h2 (by decide)
    · rcases List.mem_cons.mp h2 with h3 | h3
      · exact absurd h3 (by decide)
      · exact h h3

theorem numberLines_ne_nil {L : List Str} (k : Nat) (hL : L ≠ []) :
    numberLines k L ≠ [] := by
  cases L with
  | nil => exact absurd rfl hL
  | cons l ls => simp [numberLines]

theorem newline_not_mem_of_mem_numberLines {L : List Str} {k : Nat} {p : Str}
    (h : ∀ l ∈ L, '\n' ∉ l) (hp : p ∈ numberLines k L) : '\n' ∉ p := by
  induction L generalizing k with
  | nil => simp [numberLines] at hp
  | cons l ls ih =>
    simp only [numberLines] at hp
    rcases List.mem_cons.mp hp with h1 | h1
    · subst h1
      exact newline_not_mem_numberedLine k (h l (List.mem_cons_self _ _))
    · exact ih (fun r hr => h r (List.mem_cons_of_mem _ hr)) h1

theorem splitLines_joinLines_numberLines {L : List Str} (k : Nat) (hne : L ≠ [])
    (h : ∀ l ∈ L, '\n' ∉ l) :
    splitLines (joinLines (numberLines k L)) = numberLines k L :=
  splitCh_joinCh (numberLines_ne_nil k hne)
    (fun p hp => newline_not_mem_of_mem_numberLines h hp)

theorem numberLines_get? (L : List Str) (k i : Nat) :
    (numberLines k L).get? i = (L.get? i).map fun line => numberedLine (k + i) line := by
  induction L generalizing k i with
  | nil => simp [numberLines]
  | cons l ls ih =>
    cases i with
    | zero => simp [numberLines]
    | succ j =>
      simp only [numberLines, List.get?]
      rw [ih (k + 1) j, show k + 1 + j = k + (j + 1) from by omega]

theorem newline_not_mem_of_mem_splitLines {content : Str} {p : Str}
    (hp : p ∈ splitLines content) : '\n' ∉ p :=
  not_mem_of_mem_splitCh hp

theorem splitLines_ne_nil (content : Str) : splitLines content ≠ [] :=
  splitCh_ne_nil '\n' content

theorem view_some_pair_eq (content : Str) (a b : Int) :
    view content (some [a, b]) =
      if (max 0 (a - 1) : Int) ≤
          (if b = -1 then ((splitLines content).length : Int) - 1
           else min (((splitLines content).length : Int) - 1) (b - 1)) then
        joinLines (numberLines ((max 0 (a - 1)).toNat + 1)
          (((splitLines content).drop (max 0 (a - 1)).toNat).take
            ((if b = -1 then ((splitLines content).length : Int) - 1
              else min (((splitLines content).length : Int) - 1) (b - 1)).toNat + 1
              - (max 0 (a - 1)).toNat)))
      else renderAll (splitLines content) := rfl

/-- C8: the file branch of `view` never errors on a bad range: with no
`view_range`, a range that is not a two-element array, or a range whose
clamped slice is empty, it renders every line of the file (numbered);
with a valid range it renders exactly the slice from the clamped start
to the clamped end, each rendered line prefixed with its 1-indexed line
number in the original file. -/
theorem C8_view_never_errors (content : Str) (vr : Option (List Int)) :
    (vr = none → view content vr = renderAll (splitLines content)) ∧
    (∀ l, vr = some l → l.length ≠ 2 → view content vr = renderAll (splitLines content)) ∧
    (∀ i, (splitLines (renderAll (splitLines content))).get? i =
        ((splitLines content).get? i).map fun line => numberedLine (i + 1) line) ∧
    (∀ a b sL eL, vr = some [a, b] → sL = max 0 (a - 1) →
      eL = (if b = -1 then ((splitLines content).length : Int) - 1
            else min (((splitLines content).length : Int) - 1) (b - 1)) →
      (eL < sL → view content vr = renderAll (splitLines content)) ∧
      (sL ≤ eL → ∀ i,
        (splitLines (view content vr)).get? i =
          if sL.toNat + i ≤ eL.toNat
          then ((splitLines content).get? (sL.toNat + i)).map
                 fun line => numberedLine (sL.toNat + i + 1) line
          else none)) := by
  refine ⟨?_, ?_, ?_, ?_⟩
  · intro h; subst h; rfl
  · intro l h hlen
    subst h
    match l with
    | [] => rfl
    | [x] => rfl
    | [x, y] => exact absurd rfl hlen
    | x :: y :: z :: rest => rfl
  · intro i
    rw [renderAll, splitLines_joinLines_numberLines 1 (splitLines_ne_nil content)
      (fun l hl => newline_not_mem_of_mem_splitLines hl)]
    rw [numberLines_get?, Nat.add_comm 1 i]
  · intro a b sL eL hvr hsL heL
    subst hvr
    have hlen1 : 1 ≤ (splitLines content).length :=
      List.length_pos.mpr (splitLines_ne_nil content)
    have heL_le : eL ≤ ((splitLines content).length : Int) - 1 := by
      rw [heL]; split
      · exact le_refl _
      · exact min_le_left _ _
    have hsL0 : 0 ≤ sL := by rw [hsL]; exact le_max_left _ _
    constructor
    · intro hlt
      rw [view_some_pair_eq, ← hsL, ← heL, if_neg (not_le.mpr hlt)]
    · intro hle i
      rw [view_some_pair_eq, ← hsL, ← heL, if_pos hle]
      have hs_le_e : sL.toNat ≤ eL.toNat := Int.toNat_le_toNat hle
      have he_lt_len : eL.toNat < (splitLines content).length := by
        have := Int.toNat_le_toNat heL_le
        have h2 : ((splitLines content).length : Int) - 1 ≥ 0 := by omega
        omega
      have hsel_sub : ∀ l ∈ ((splitLines content).drop sL.toNat).take
          (eL.toNat + 1 - sL.toNat), '\n' ∉ l := fun l hl =>
        newline_not_mem_of_mem_splitLines
          (List.drop_subset _ _ (List.take_subset _ _ hl))
      have hsel_ne : ((splitLines content).drop sL.toNat).take
          (eL.toNat + 1 - sL.toNat) ≠ [] := by
        intro hnil
        have := congrArg List.length hnil
        simp only [List.length_take, List.length_drop, List.length_nil] at this
        omega
      rw [splitLines_joinLines_numberLines _ hsel_ne hsel_sub, numberLines_get?,
        get?_take_eq, get?_drop_eq]
      by_cases hcase : sL.toNat + i ≤ eL.toNat
      · rw [if_pos (by omega : i < eL.toNat + 1 - sL.toNat), if_pos hcase,
          show sL.toNat + 1 + i = sL.toNat + i + 1 from by omega]
      · rw [if_neg (by omega : ¬ i < eL.toNat + 1 - sL.toNat), if_neg hcase]
        rfl

theorem C8_view_never_errors_witness :
    (splitLines (view ['a', '\n', 'b', '\n', 'c'] (some [2, 3]))).get? 0 =
      some (numberedLine 2 ['b']) := by
  have h := ((C8_view_never_errors ['a', '\n', 'b', '\n', 'c']
      (some [2, 3])).2.2.2 2 3 _ _ rfl rfl rfl).2 (by decide) 0
  exact h.trans rfl

theorem files_backupFile (p : Str) (s : FSState) : (backupFile p s).files = s.files := by
  unfold backupFile
  cases s.files p <;> rfl

theorem edit_invalid {content : Str} (start_line end_line : Int) (new_content : Str)
    (h : start_line < 1 ∨ ((splitLines content).length : Int) < start_line ∨
      effEndLine (splitLines content).length end_line < start_line ∨
      ((splitLines content).length : Int) < effEndLine (splitLines content).length end_line) :
    edit content start_line end_line new_content = .error .invalidRange := by
  simp only [edit]
  by_cases h1 : start_line < 1 ∨ ((splitLines content).length : Int) < start_line
  · rw [if_pos h1]
  · rw [if_neg h1, if_pos (by tauto)]

theorem edit_valid {content : Str} (start_line end_line : Int) (new_content : Str)
    (h1 : 1 ≤ start_line)
    (h2 : start_line ≤ ((splitLines content).length : Int))
    (h3 : start_line ≤ effEndLine (splitLines content).length end_line)
    (h4 : effEndLine (splitLines content).length end_line ≤ ((splitLines content).length : Int)) :
    edit content start_line end_line new_content =
      Except.ok (joinLines ((splitLines content).take (start_line - 1).toNat
        ++ splitLines new_content
        ++ (splitLines content).drop
             (effEndLine (splitLines content).length end_line).toNat)) := by
  simp only [edit]
  rw [if_neg (by omega), if_neg (by omega)]
  rw [show ((effEndLine (splitLines content).length end_line) - 1).toNat + 1 =
        (effEndLine (splitLines content).length end_line).toNat from by omega]

/-- C3: for every content and every range that is valid after resolving
the `-1` sentinel, `edit` returns the content whose line list is the
lines strictly before `start_line`, then the lines of `new_content`
split on line breaks, then the lines strictly after the resolved
`end_line`; lines outside the edited span are unchanged. -/
theorem C3_edit_splice (content : Str) (start_line end_line : Int) (new_content : Str)
    (h1 : 1 ≤ start_line)
    (h2 : start_line ≤ ((splitLines content).length : Int))
    (h3 : start_line ≤ effEndLine (splitLines content).length end_line)
    (h4 : effEndLine (splitLines content).length end_line ≤ ((splitLines content).length : Int)) :
    edit content start_line end_line new_content =
      Except.ok (joinLines ((splitLines content).take (start_line - 1).toNat
        ++ splitLines new_content
        ++ (splitLines content).drop
             (effEndLine (splitLines content).length end_line).toNat)) ∧
    splitLines (joinLines ((splitLines content).take (start_line - 1).toNat
        ++ splitLines new_content
        ++ (splitLines content).drop
             (effEndLine (splitLines content).length end_line).toNat)) =
      (splitLines content).take (start_line - 1).toNat
        ++ splitLines new_content
        ++ (splitLines content).drop
             (effEndLine (splitLines content).length end_line).toNat := by
  refine ⟨edit_valid start_line end_line new_content h1 h2 h3 h4, ?_⟩
  apply splitCh_joinCh
  · intro hnil
    rcases List.append_eq_nil.mp hnil with ⟨hAB, _⟩
    rcases List.append_eq_nil.mp hAB with ⟨_, hB⟩
    exact splitLines_ne_nil new_content hB
  · intro l hl
    rcases List.mem_append.mp hl with hA | hA
    · rcases List.mem_append.mp hA with hB | hB
      · exact newline_not_mem_of_mem_splitLines (List.take_subset _ _ hB)
      · exact newline_not_mem_of_mem_splitLines hB
    · exact newline_not_mem_of_mem_splitLines (List.drop_subset _ _ hA)

theorem C3_edit_splice_witness :
    edit ['a', '\n', 'b', '\n', 'c', '\n', 'd'] 2 3 ['x', '\n', 'y', '\n', 'z'] =
      Except.ok ['a', '\n', 'x', '\n', 'y', '\n', 'z', '\n', 'd'] ∧
    splitLines ['a', '\n', 'x', '\n', 'y', '\n', 'z', '\n', 'd'] =
      [['a'], ['x'], ['y'], ['z'], ['d']] := by
  have h := C3_edit_splice ['a', '\n', 'b', '\n', 'c', '\n', 'd'] 2 3
    ['x', '\n', 'y', '\n', 'z'] (by decide) (by decide) (by decide) (by decide)
  exact ⟨h.1.trans rfl, by decide⟩

/-- C4: `edit` fails with a range error exactly when `start_line` is
outside `[1, line_count]` or the resolved `end_line` is outside
`[start_line, line_count]`, and such a validation failure leaves every
file's content unmodified (the throw happens before the write; only the
in-memory backup record has been touched). -/
theorem C4_edit_range_validation (p : Str) (s : FSState) (content : Str)
    (start_line end_line : Int) (new_content : Str)
    (hf : s.files p = some content) :
    ((start_line < 1 ∨ ((splitLines content).length : Int) < start_line ∨
      effEndLine (splitLines content).length end_line < start_line ∨
      ((splitLines content).length : Int) < effEndLine (splitLines content).length end_line)
      ↔ editOp p start_line end_line new_content s =
          .error .invalidRange (backupFile p s)) ∧
    (editOp p start_line end_line new_content s = .error .invalidRange (backupFile p s) →
      (stateOf (editOp p start_line end_line new_content s)).files = s.files) := by
  constructor
  · constructor
    · intro hcond
      simp only [editOp, hf, edit_invalid start_line end_line new_content hcond]
    · intro herr
      by_cases hcond : start_line < 1 ∨ ((splitLines content).length : Int) < start_line ∨
        effEndLine (splitLines content).length end_line < start_line ∨
        ((splitLines content).length : Int) < effEndLine (splitLines content).length end_line
      · exact hcond
      · exfalso
        push_neg at hcond
        obtain ⟨g1, g2, g3, g4⟩ := hcond
        have hok := @edit_valid content start_line end_line new_content
          (by omega) g2 g3 g4
        simp only [editOp, hf, hok] at herr
        exact OpResult.noConfusion herr
  · intro herr
    rw [herr]
    exact files_backupFile p s

theorem C4_edit_range_validation_witness :
    editOp ['f'] 0 1 [] stTwoLines =
      OpResult.error EditorError.invalidRange (backupFile ['f'] stTwoLines) :=
  ((C4_edit_range_validation ['f'] stTwoLines ['a', '\n', 'b'] 0 1 []
    (by decide)).1).mp (Or.inl (by decide))

theorem get?_append_eq {α : Type} (l1 l2 : List α) (i : Nat) :
    (l1 ++ l2).get? i = if i < l1.length then l1.get? i else l2.get? (i - l1.length) := by
  induction l1 generalizing i with
  | nil => simp
  | cons x xs ih =>
    cases i with
    | zero => simp
    | succ j => simpa using ih j

theorem get?_replicate {α : Type} (a : α) (n i : Nat) :
    (List.replicate n a).get? i = if i < n then some a else none := by
  induction n generalizing i with
  | zero => simp
  | succ m ih =>
    cases i with
    | zero => simp [List.replicate]
    | succ j => simpa [List.replicate] using ih j

theorem getLast?_append_singleton {α : Type} (l : List α) (a : α) :
    (l ++ [a]).getLast? = some a := by
  induction l with
  | nil => rfl
  | cons x xs ih =>
    cases xs with
    | nil => rfl
    | cons y ys =>
      show (x :: y :: (ys ++ [a])).getLast? = some a
      rw [List.getLast?_cons_cons]
      exact ih

/-- C6: inserting at a `line_number` strictly beyond the current line
count does not error: it writes back a line array of length exactly
`line_number` whose final line is `text` and whose newly added
intervening lines are all empty. -/
theorem C6_insert_beyond_eof (content : Str) (L : Int) (text : Str)
    (hL : ((splitLines content).length : Int) < L) :
    (∀ p st, st.files p = some content →
      insertOp p L text st =
        .ok (writeFile p (joinLines (insertArray (splitLines content) L text))
          (backupFile p st))) ∧
    (insertArray (splitLines content) L text).length = L.toNat ∧
    (insertArray (splitLines content) L text).getLast? = some text ∧
    (∀ i, (splitLines content).length ≤ i → i + 1 < L.toNat →
      (insertArray (splitLines content) L text).get? i = some []) := by
  have hlen1 : 1 ≤ (splitLines content).length :=
    List.length_pos.mpr (splitLines_ne_nil content)
  have harr : insertArray (splitLines content) L text =
      ((splitLines content) ++
        List.replicate ((L - 1).toNat - (splitLines content).length) []) ++ [text] := by
    rw [insertArray, if_neg (by omega)]
  refine ⟨?_, ?_, ?_, ?_⟩
  · intro p st hst
    simp only [insertOp, hst]
    rw [if_neg (by omega)]
  · rw [harr]
    simp only [List.length_append, List.length_replicate, List.length_cons,
      List.length_nil]
    omega
  · rw [harr]
    exact getLast?_append_singleton _ text
  · intro i hi hi2
    rw [harr, get?_append_eq]
    rw [if_pos (by simp only [List.length_append, List.length_replicate]; omega)]
    rw [get?_append_eq, if_neg (by omega), get?_replicate, if_pos (by omega)]

theorem C6_insert_beyond_eof_witness :
    insertOp ['f'] 3 ['X'] stTwoLines =
      .ok (writeFile ['f'] (joinLines (insertArray (splitLines ['a', '\n', 'b']) 3 ['X']))
        (backupFile ['f'] stTwoLines)) ∧
    (insertArray (splitLines ['a', '\n', 'b']) 3 ['X']).length = (3 : Int).toNat := by
  have h := C6_insert_beyond_eof ['a', '\n', 'b'] 3 ['X'] (by decide)
  exact ⟨h.1 ['f'] stTwoLines (by decide), h.2.1⟩

/-- C9: for a `line_number` within the file, `insert` adds `text` as one
single line — the element at index `line_number - 1` of the resulting
array is `text` itself, even when `text` contains embedded line breaks
(it is not re-split) — the array grows by exactly one, and every other
line is preserved in order. -/
theorem C9_insert_single_line (content : Str) (L : Int) (text : Str)
    (h1 : 1 ≤ L) (h2 : L ≤ ((splitLines content).length : Int)) :
    (∀ p st, st.files p = some content →
      insertOp p L text st =
        .ok (writeFile p (joinLines (insertArray (splitLines content) L text))
          (backupFile p st))) ∧
    (insertArray (splitLines content) L text).length = (splitLines content).length + 1 ∧
    (insertArray (splitLines content) L text).get? (L - 1).toNat = some text ∧
    (∀ i, i < (L - 1).toNat →
      (insertArray (splitLines content) L text).get? i = (splitLines content).get? i) ∧
    (∀ i, (L - 1).toNat ≤ i → i < (splitLines content).length →
      (insertArray (splitLines content) L text).get? (i + 1) =
        (splitLines content).get? i) := by
  have hm : (L - 1).toNat < (splitLines content).length := by omega
  have harr : insertArray (splitLines content) L text =
      (splitLines content).take (L - 1).toNat ++
        text :: (splitLines content).drop (L - 1).toNat := by
    rw [insertArray, if_pos (by omega)]
  have htake : ((splitLines content).take (L - 1).toNat).length = (L - 1).toNat := by
    simp only [List.length_take]
    omega
  refine ⟨?_, ?_, ?_, ?_, ?_⟩
  · intro p st hst
    simp only [insertOp, hst]
    rw [if_neg (by omega)]
  · rw [harr]
    simp only [List.length_append, List.length_take, List.length_cons, List.length_drop]
    omega
  · rw [harr, get?_append_eq, htake, if_neg (by omega), Nat.sub_self]
    rfl
  · intro i hi
    rw [harr, get?_append_eq, htake, if_pos hi, get?_take_eq, if_pos hi]
  · intro i hi hi2
    rw [harr, get?_append_eq, htake, if_neg (by omega)]
    rw [show i + 1 - (L - 1).toNat = (i - (L - 1).toNat) + 1 from by omega]
    show ((splitLines content).drop (L - 1).toNat).get? (i - (L - 1).toNat) = _
    rw [get?_drop_eq, show (L - 1).toNat + (i - (L - 1).toNat) = i from by omega]

theorem C9_insert_single_line_witness :
    (insertArray (splitLines ['a', '\n', 'b']) 2 ['X', '\n', 'Y']).get?
        ((2 : Int) - 1).toNat = some ['X', '\n', 'Y'] ∧
    (insertArray (splitLines ['a', '\n', 'b']) 2 ['X', '\n', 'Y']).length = 3 := by
  have h := C9_insert_single_line ['a', '\n', 'b'] 2 ['X', '\n', 'Y']
    (by decide) (by decide)
  exact ⟨h.2.2.1, h.2.1.trans (by decide)⟩

/-- C7: `create` on an existing target with `overwrite` false fails with
an already-exists error and leaves the file unchanged; with `overwrite`
true, or on a fresh target, it succeeds and afterwards the file's
content is exactly the supplied content, verbatim. -/
theorem C7_create_semantics (p content : Str) (overwrite : Bool) (s : FSState) :
    ((∃ c, s.files p = some c) → overwrite = false →
      createOp p content overwrite s = .error .alreadyExists s ∧
      (stateOf (createOp p content overwrite s)).files p = s.files p) ∧
    ((overwrite = true ∨ s.files p = none) →
      succeeded (createOp p content overwrite s) = true ∧
      (stateOf (createOp p content overwrite s)).files p = some content) := by
  constructor
  · rintro ⟨c, hc⟩ hov
    subst hov
    refine ⟨?_, ?_⟩ <;> simp [createOp, hc, stateOf]
  · intro h
    rcases h with hov | hnone
    · subst hov
      cases hfp : s.files p with
      | none => simp [createOp, hfp, succeeded, stateOf, writeFile]
      | some c => simp [createOp, hfp, succeeded, stateOf, writeFile]
    · simp [createOp, hnone, succeeded, stateOf, writeFile]

theorem C7_create_semantics_witness :
    succeeded (createOp ['g'] ['h', 'i'] false stEmptyFS) = true ∧
    (stateOf (createOp ['g'] ['h', 'i'] false stEmptyFS)).files ['g'] =
      some ['h', 'i'] :=
  (C7_create_semantics ['g'] ['h', 'i'] false stEmptyFS).2 (Or.inr rfl)

/-- C10: `undo_edit` looks the backup up with a JavaScript truthiness
check, so a stored *empty* snapshot is treated like a missing one: the
call fails with the no-backup error and no file is restored. -/
theorem C10_undo_empty_snapshot (p : Str) (s : FSState)
    (h : s.backups p = some []) :
    undoOp p s = .error .notFound s ∧
    (stateOf (undoOp p s)).files = s.files := by
  have h1 : undoOp p s = .error .notFound s := by
    simp [undoOp, h]
  exact ⟨h1, by rw [h1]; rfl⟩

theorem C10_undo_empty_snapshot_witness :
    undoOp ['f'] stEmptyBackup = .error .notFound stEmptyBackup :=
  (C10_undo_empty_snapshot ['f'] stEmptyBackup (by decide)).1

/-- C2 (failing input): on a file whose pre-mutation content is empty,
a successful mutation stores the empty snapshot, yet the following
`undo_edit` fails with the no-backup error and the file keeps the
mutated content — the claimed snapshot/mutate/undo round trip does not
hold for the empty content. -/
theorem C2_undo_empty_content_bug :
    succeeded (applyMutation (Mutation.ins 1 ['x']) ['f'] stEmptyFile) = true ∧
    (stateOf (applyMutation (Mutation.ins 1 ['x']) ['f'] stEmptyFile)).backups ['f'] =
      some [] ∧
    failed (undoOp ['f']
      (stateOf (applyMutation (Mutation.ins 1 ['x']) ['f'] stEmptyFile))) = true ∧
    (stateOf (undoOp ['f']
      (stateOf (applyMutation (Mutation.ins 1 ['x']) ['f'] stEmptyFile)))).files ['f'] ≠
      some [] := by decide

theorem applyMutation_ok_shape (m : Mutation) (p : Str) (s : FSState) (c : Str)
    (hf : s.files p = some c) (hok : succeeded (applyMutation m p s) = true) :
    ∃ out, applyMutation m p s = .ok (writeFile p out (backupFile p s)) := by
  cases m with
  | strRep old new count =>
    exact ⟨str_replace c old new count, by simp [applyMutation, strReplaceOp, hf]⟩
  | ed a b nc =>
    cases hedit : edit c a b nc with
    | error e => simp [applyMutation, editOp, hf, hedit, succeeded] at hok
    | ok out => exact ⟨out, by simp [applyMutation, editOp, hf, hedit]⟩
  | ins n t =>
    by_cases hn : n < 1
    · simp [applyMutation, insertOp, hf, hn, succeeded] at hok
    · exact ⟨joinLines (insertArray (splitLines c) n t),
        by simp [applyMutation, insertOp, hf, hn]⟩
  | createOv c2 => exact ⟨c2, by simp [applyMutation, createOp, hf]⟩

/-- For every *nonempty* pre-mutation content the snapshot/mutate/undo
round trip does hold: undo restores the content byte for byte, consumes
the snapshot, and a second undo fails.  (Together with
`C2_undo_empty_content_bug`, this isolates the failure of the claimed
round trip to exactly the empty-content case.) -/
theorem undo_roundtrip_of_ne_nil (m : Mutation) (p : Str) (s : FSState) (c : Str)
    (hc : c ≠ []) (hf : s.files p = some c)
    (hok : succeeded (applyMutation m p s) = true) :
    succeeded (undoOp p (stateOf (applyMutation m p s))) = true ∧
    (stateOf (undoOp p (stateOf (applyMutation m p s)))).files p = some c ∧
    (stateOf (undoOp p (stateOf (applyMutation m p s)))).backups p = none ∧
    failed (undoOp p (stateOf (undoOp p (stateOf (applyMutation m p s))))) = true := by
  obtain ⟨out, hshape⟩ := applyMutation_ok_shape m p s c hf hok
  rw [hshape]
  have hb : (writeFile p out (backupFile p s)).backups p = some c := by
    simp [writeFile, backupFile, hf]
  simp only [stateOf, undoOp, hb, if_neg hc]
  simp [stateOf, succeeded, failed]

/-- C1 (failing input): with base directory `/base`, the input
`../base2/f.txt` resolves to `/base2/f.txt`, which is neither equal to
nor a descendant of `/base`, yet `validatePath` accepts it, because the
check is `resolvedPath.startsWith(path.resolve(baseDir))` and the
string `/base2/f.txt` starts with the string `/base`. A `..` input thus
escapes the base directory, against the claimed
"access denied iff not a descendant" characterization. -/
theorem C1_prefix_collision_escape :
    validatePath "/base".data "../base2/f.txt".data =
      Except.ok "/base2/f.txt".data ∧
    descendantOrEqual "/base".data "../base2/f.txt".data = false :=
  ⟨rfl, by decide⟩

theorem joinCh_prefix_append (sep : Char) (A B : List Str) :
    joinCh sep A <+: joinCh sep (A ++ B) := by
  induction A with
  | nil => exact List.nil_prefix
  | cons p A' ih =>
    cases A' with
    | nil =>
      cases B with
      | nil => exact List.prefix_refl _
      | cons q qs =>
        show p <+: p ++ sep :: joinCh sep (q :: qs)
        exact List.prefix_append p _
    | cons r A'' =>
      show p ++ sep :: joinCh sep (r :: A'') <+:
        p ++ sep :: joinCh sep (r :: (A'' ++ B))
      refine (List.prefix_append_right_inj p).mpr ?_
      exact List.cons_prefix_cons.mpr ⟨rfl, ih⟩

/-- The direction of the path-confinement claim that does hold: a path
whose resolution is equal to, or a descendant of, the normalized base
directory is always accepted (so every rejected path is indeed outside;
`C1_prefix_collision_escape` shows the converse fails). -/
theorem validatePath_ok_of_descendant (baseDir filePath : Str)
    (h : descendantOrEqual baseDir filePath = true) :
    validatePath baseDir filePath = Except.ok (pathResolve baseDir filePath) := by
  have hpre : normSegs (splitSlash baseDir) <+: resolveSegs baseDir filePath :=
    List.isPrefixOf_iff_prefix.mp h
  obtain ⟨B, hB⟩ := hpre
  have hstr : normAbs baseDir <+: pathResolve baseDir filePath := by
    rw [normAbs, pathResolve, ← hB]
    exact List.cons_prefix_cons.mpr ⟨rfl, joinCh_prefix_append '/' _ B⟩
  unfold validatePath
  rw [if_pos (List.isPrefixOf_iff_prefix.mpr hstr)]

theorem validatePath_ok_of_descendant_witness :
    validatePath "/base".data "subdir/file.txt".data =
      Except.ok (pathResolve "/base".data "subdir/file.txt".data) :=
  validatePath_ok_of_descendant "/base".data "subdir/file.txt".data (by decide)

theorem splitOcc_ne_nil (old content : Str) : splitOcc old content ≠ [] := by
  cases content with
  | nil => simp [splitOcc]
  | cons c cs =>
    simp only [splitOcc]
    split
    · simp
    · split <;> simp

theorem joinBudget_cons_cons (new old : Str) (b : Option Nat) (c : Char)
    (p : Str) (ps : List Str) :
    joinBudget new old b ((c :: p) :: ps) = c :: joinBudget new old b (p :: ps) := by
  cases ps with
  | nil => rfl
  | cons q qs => simp [joinBudget]

theorem interText_cons_cons (sep : Str) (c : Char) (p : Str) (ps : List Str) :
    interText sep ((c :: p) :: ps) = c :: interText sep (p :: ps) := by
  cases ps with
  | nil => rfl
  | cons q qs => simp [interText]

theorem dollarSubst_no_dollar (matched before after : Str) {l : Str}
    (h : '$' ∉ l) : dollarSubst matched before after l = l := by
  induction l with
  | nil => rw [dollarSubst.eq_def]
  | cons c rest ih =>
    have hc : c ≠ '$' := fun hcc => h (hcc ▸ List.mem_cons_self _ _)
    have hr : '$' ∉ rest := fun hm => h (List.mem_cons_of_mem _ hm)
    rw [dollarSubst.eq_def]
    simp only [if_neg hc]
    rw [ih hr]

theorem prefix_append_drop {old rest : Str} (h : old.isPrefixOf rest = true) :
    old ++ List.drop old.length rest = rest := by
  have hpre : old <+: rest := List.isPrefixOf_iff_prefix.mp h
  obtain ⟨t, ht⟩ := hpre
  subst ht
  rw [List.drop_left]

theorem scanReplaceLimited_eq_aux (old new : Str) (hold : old ≠ []) :
    ∀ N content, content.length ≤ N → ∀ n : Nat,
      scanReplaceLimited old new n content =
        joinBudget new old (some n) (splitOcc old content) := by
  intro N
  induction N with
  | zero =>
    intro content hlen n
    rw [List.length_eq_zero.mp (Nat.le_zero.mp hlen)]
    simp [scanReplaceLimited, splitOcc, joinBudget, hold]
  | succ N ih =>
    intro content hlen n
    cases content with
    | nil => simp [scanReplaceLimited, splitOcc, joinBudget, hold]
    | cons c cs =>
      simp only [scanReplaceLimited, dif_neg hold]
      by_cases hpre : old.isPrefixOf (c :: cs) = true
      · rw [if_pos hpre]
        simp only [splitOcc, if_pos (And.intro hold hpre)]
        have hlen2 : (List.drop old.length (c :: cs)).length ≤ N := by
          simp only [List.length_drop, List.length_cons]
          have : 0 < old.length := List.length_pos.mpr hold
          simp only [List.length_cons] at hlen
          omega
        rw [ih _ hlen2 (n - 1)]
        cases hsp : splitOcc old (List.drop old.length (c :: cs)) with
        | nil => exact absurd hsp (splitOcc_ne_nil _ _)
        | cons p ps =>
          simp only [joinBudget, activeB, dec1, List.nil_append, decide_eq_true_eq]
      · rw [if_neg hpre]
        have hnotand : ¬(old ≠ [] ∧ old.isPrefixOf (c :: cs) = true) := by
          intro hand; exact hpre hand.2
        simp only [splitOcc, if_neg hnotand]
        have hlen2 : cs.length ≤ N := by
          simp only [List.length_cons] at hlen; omega
        rw [ih cs hlen2 n]
        cases hsp : splitOcc old cs with
        | nil => exact absurd hsp (splitOcc_ne_nil _ _)
        | cons p ps =>
          rw [joinBudget_cons_cons]

theorem scanReplaceLimited_eq (old new : Str) (hold : old ≠ []) (n : Nat)
    (content : Str) :
    scanReplaceLimited old new n content =
      joinBudget new old (some n) (splitOcc old content) :=
  scanReplaceLimited_eq_aux old new hold content.length content le_rfl n

theorem scanAllAux_eq_aux (original old new : Str) (hold : old ≠ [])
    (hnew : '$' ∉ new) :
    ∀ N content, content.length ≤ N → ∀ pos,
      scanAllAux original old new pos content =
        joinBudget new old none (splitOcc old content) := by
  intro N
  induction N with
  | zero =>
    intro content hlen pos
    rw [List.length_eq_zero.mp (Nat.le_zero.mp hlen)]
    simp [scanAllAux, splitOcc, joinBudget, hold]
  | succ N ih =>
    intro content hlen pos
    cases content with
    | nil => simp [scanAllAux, splitOcc, joinBudget, hold]
    | cons c cs =>
      simp only [scanAllAux, dif_neg hold]
      by_cases hpre : old.isPrefixOf (c :: cs) = true
      · rw [if_pos hpre]
        simp only [splitOcc, if_pos (And.intro hold hpre)]
        have hlen2 : (List.drop old.length (c :: cs)).length ≤ N := by
          simp only [List.length_drop, List.length_cons]
          have : 0 < old.length := List.length_pos.mpr hold
          simp only [List.length_cons] at hlen
          omega
        rw [ih _ hlen2 (pos + old.length),
          dollarSubst_no_dollar _ _ _ hnew]
        cases hsp : splitOcc old (List.drop old.length (c :: cs)) with
        | nil => exact absurd hsp (splitOcc_ne_nil _ _)
        | cons p ps =>
          simp [joinBudget, activeB, dec1]
      · rw [if_neg hpre]
        have hnotand : ¬(old ≠ [] ∧ old.isPrefixOf (c :: cs) = true) := by
          intro hand; exact hpre hand.2
        simp only [splitOcc, if_neg hnotand]
        have hlen2 : cs.length ≤ N := by
          simp only [List.length_cons] at hlen; omega
        rw [ih cs hlen2 (pos + 1)]
        cases hsp : splitOcc old cs with
        | nil => exact absurd hsp (splitOcc_ne_nil _ _)
        | cons p ps =>
          rw [joinBudget_cons_cons]

theorem jsReplaceAll_eq (content old new : Str) (hold : old ≠ [])
    (hnew : '$' ∉ new) :
    jsReplaceAll content old new = joinBudget new old none (splitOcc old content) :=
  scanAllAux_eq_aux content old new hold hnew content.length content le_rfl 0

theorem interText_splitOcc_aux (old : Str) (hold : old ≠ []) :
    ∀ N content, content.length ≤ N →
      interText old (splitOcc old content) = content := by
  intro N
  induction N with
  | zero =>
    intro content hlen
    rw [List.length_eq_zero.mp (Nat.le_zero.mp hlen)]
    simp [splitOcc, interText]
  | succ N ih =>
    intro content hlen
    cases content with
    | nil => simp [splitOcc, interText]
    | cons c cs =>
      by_cases hpre : old.isPrefixOf (c :: cs) = true
      · simp only [splitOcc, if_pos (And.intro hold hpre)]
        have hlen2 : (List.drop old.length (c :: cs)).length ≤ N := by
          simp only [List.length_drop, List.length_cons]
          have : 0 < old.length := List.length_pos.mpr hold
          simp only [List.length_cons] at hlen
          omega
        cases hsp : splitOcc old (List.drop old.length (c :: cs)) with
        | nil => exact absurd hsp (splitOcc_ne_nil _ _)
        | cons p ps =>
          have hrec := ih _ hlen2
          rw [hsp] at hrec
          simp only [interText, List.nil_append]
          rw [hrec]
          exact prefix_append_drop hpre
      · have hnotand : ¬(old ≠ [] ∧ old.isPrefixOf (c :: cs) = true) := by
          intro hand; exact hpre hand.2
        simp only [splitOcc, if_neg hnotand]
        have hlen2 : cs.length ≤ N := by
          simp only [List.length_cons] at hlen; omega
        have hrec := ih cs hlen2
        cases hsp : splitOcc old cs with
        | nil => exact absurd hsp (splitOcc_ne_nil _ _)
        | cons p ps =>
          rw [hsp] at hrec
          rw [interText_cons_cons, hrec]

theorem interText_splitOcc (old content : Str) (hold : old ≠ []) :
    interText old (splitOcc old content) = content :=
  interText_splitOcc_aux old hold content.length content le_rfl

theorem splitOcc_length_one {old content : Str} (hold : old ≠ [])
    (h : (splitOcc old content).length = 1) : splitOcc old content = [content] := by
  cases hsp : splitOcc old content with
  | nil => exact absurd hsp (splitOcc_ne_nil _ _)
  | cons p ps =>
    rw [hsp] at h
    simp only [List.length_cons] at h
    have hps : ps = [] := List.length_eq_zero.mp (by omega)
    subst hps
    have := interText_splitOcc old content hold
    rw [hsp] at this
    simp only [interText] at this
    rw [this]

theorem scanAllAux_no_occurrence_aux (original old new : Str) (hold : old ≠ []) :
    ∀ N content, content.length ≤ N → (splitOcc old content).length = 1 → ∀ pos,
      scanAllAux original old new pos content = content := by
  intro N
  induction N with
  | zero =>
    intro content hlen _ pos
    rw [List.length_eq_zero.mp (Nat.le_zero.mp hlen)]
    simp [scanAllAux, hold]
  | succ N ih =>
    intro content hlen hocc pos
    cases content with
    | nil => simp [scanAllAux, hold]
    | cons c cs =>
      simp only [scanAllAux, dif_neg hold]
      by_cases hpre : old.isPrefixOf (c :: cs) = true
      · exfalso
        simp only [splitOcc, if_pos (And.intro hold hpre)] at hocc
        simp only [List.length_cons] at hocc
        have h1 : 1 ≤ (splitOcc old (List.drop old.length (c :: cs))).length :=
          List.length_pos.mpr (splitOcc_ne_nil _ _)
        omega
      · rw [if_neg hpre]
        have hnotand : ¬(old ≠ [] ∧ old.isPrefixOf (c :: cs) = true) := by
          intro hand; exact hpre hand.2
        simp only [splitOcc, if_neg hnotand] at hocc
        have hlen2 : cs.length ≤ N := by
          simp only [List.length_cons] at hlen; omega
        cases hsp : splitOcc old cs with
        | nil => exact absurd hsp (splitOcc_ne_nil _ _)
        | cons p ps =>
          rw [hsp] at hocc
          simp only [List.length_cons] at hocc
          rw [ih cs hlen2 (by rw [hsp]; simp only [List.length_cons]; omega) (pos + 1)]

theorem scanAllAux_no_occurrence (original old new : Str) (hold : old ≠ [])
    (hocc : (splitOcc old content).length = 1) (pos : Nat) :
    scanAllAux original old new pos content = content :=
  scanAllAux_no_occurrence_aux original old new hold content.length content
    le_rfl hocc pos

/-- C5 (counterexample): with `count` omitted, replacing `old_str = "a"`
by `new_str` consisting of a dollar and an ampersand in the content
`"a"` yields `"a"` — the replace-all branch passes `new_str` to
JavaScript's `String.prototype.replace` as a replacement *pattern*, so
the dollar-ampersand pair denotes the matched text — whereas the claim
("every occurrence of old_str is replaced by new_str") demands the
two-character `new_str` itself, which `joinBudget`/`splitOcc` computes. -/
theorem C5_str_replace_counterexample :
    str_replace ['a'] ['a'] ['$', '&'] none = ['a'] ∧
    joinBudget ['$', '&'] ['a'] none (splitOcc ['a'] ['a']) = ['$', '&'] ∧
    (['a'] : Str) ≠ ['$', '&'] := by
  refine ⟨?_, ?_, by decide⟩
  · simp [str_replace, jsReplaceAll, scanAllAux, dollarSubst, List.isPrefixOf]
  · simp [splitOcc, joinBudget, activeB, dec1, List.isPrefixOf]

/-- C5 (amended): for a nonempty `old_str`: if `count` is omitted or
non-positive and `new_str` contains no dollar character, every
left-to-right non-overlapping occurrence of `old_str` is replaced by
`new_str`; if `count = N > 0`, exactly the first `N` occurrences are
replaced (the callback branch inserts `new_str` verbatim, dollars
included) and the rest are untouched; and when `old_str` has zero
occurrences the content is returned unchanged, for every `count` and
`new_str`. -/
theorem C5_str_replace_amended (content old new : Str) (count : Option Int)
    (hold : old ≠ []) :
    ((count = none ∨ ∃ c, count = some c ∧ c ≤ 0) → '$' ∉ new →
      str_replace content old new count =
        joinBudget new old none (splitOcc old content)) ∧
    (∀ N : Int, count = some N → 0 < N →
      str_replace content old new count =
        joinBudget new old (some N.toNat) (splitOcc old content)) ∧
    ((splitOcc old content).length = 1 →
      str_replace content old new count = content) := by
  refine ⟨?_, ?_, ?_⟩
  · rintro (hc | ⟨c, hc, hle⟩) hnew
    · subst hc
      exact jsReplaceAll_eq content old new hold hnew
    · subst hc
      have hneg : ¬ (0 : Int) < c := by omega
      simp only [str_replace, if_neg hneg]
      exact jsReplaceAll_eq content old new hold hnew
  · intro N hc hpos
    subst hc
    simp only [str_replace, if_pos hpos]
    exact scanReplaceLimited_eq old new hold N.toNat content
  · intro hocc
    have hsp := splitOcc_length_one hold hocc
    cases count with
    | none => exact scanAllAux_no_occurrence content old new hold hocc 0
    | some c =>
      by_cases hpos : (0 : Int) < c
      · simp only [str_replace, if_pos hpos]
        rw [scanReplaceLimited_eq old new hold c.toNat content, hsp]
        rfl
      · simp only [str_replace, if_neg hpos]
        exact scanAllAux_no_occurrence content old new hold hocc 0

theorem C5_str_replace_amended_witness :
    str_replace ['a', 'b', 'a'] ['a'] ['x'] none =
      joinBudget ['x'] ['a'] none (splitOcc ['a'] ['a', 'b', 'a']) ∧
    str_replace ['a', 'b', 'a'] ['a'] ['x'] (some 1) =
      joinBudget ['x'] ['a'] (some (1 : Int).toNat) (splitOcc ['a'] ['a', 'b', 'a']) :=
  ⟨(C5_str_replace_amended ['a', 'b', 'a'] ['a'] ['x'] none (by decide)).1
      (Or.inl rfl) (by decide),
    (C5_str_replace_amended ['a', 'b', 'a'] ['a'] ['x'] (some 1) (by decide)).2.1 1 rfl
      (by decide)⟩

end TextEditor
